import Mathlib

/-!
Shallow embedding of the speaker-identity resolution and deduplication core
of blink-multicamera-stitch: `iou_time`, `cosine` and `hard_dedupe` from
`dedupe.py`, and `refine_by_verification` from `src/blink_stitch/cluster.py`.

Times, embeddings and scores are modelled as exact rationals.  Since the
standard `Rat` operations are `@[irreducible]` and do not evaluate inside
`decide`, the embedding uses kernel-computable wrappers `qadd`, `qsub`,
`qmul`, `qdiv`, `qmax`, `qmin`, each proved equal to the standard
operation.  The floating-point square root used by `np.linalg.norm` and
`sklearn.preprocessing.normalize` is not a rational operation, so it is
passed as an explicit parameter `sqrt`; theorems hold for an arbitrary
`sqrt`, and concrete witnesses use `ratSqrt`, which agrees with the real
square root on the perfect squares that occur in those witnesses.
-/

namespace BlinkStitch

/-! ## Definitions -/

/-- Kernel-computable addition on `ℚ` (agrees with `+`, see `qadd_eq`). -/
def qadd (a b : ℚ) : ℚ := mkRat (a.num * b.den + b.num * a.den) (a.den * b.den)

/-- Kernel-computable subtraction on `ℚ` (agrees with `-`, see `qsub_eq`). -/
def qsub (a b : ℚ) : ℚ := mkRat (a.num * b.den - b.num * a.den) (a.den * b.den)

/-- Kernel-computable multiplication on `ℚ` (agrees with `*`, see `qmul_eq`). -/
def qmul (a b : ℚ) : ℚ := mkRat (a.num * b.num) (a.den * b.den)

/-- Kernel-computable division on `ℚ` (agrees with `/`, see `qdiv_eq`). -/
def qdiv (a b : ℚ) : ℚ := Rat.divInt (a.num * b.den) (a.den * b.num)

/-- Kernel-computable maximum on `ℚ` (agrees with `max`, see `qmax_eq`). -/
def qmax (a b : ℚ) : ℚ := if a ≤ b then b else a

/-- Kernel-computable minimum on `ℚ` (agrees with `min`, see `qmin_eq`). -/
def qmin (a b : ℚ) : ℚ := if a ≤ b then a else b

/-- Integer square root by Newton iteration with bounded fuel; exact on all
perfect squares occurring in the witnesses below. -/
def isqrtAux (n : ℕ) : ℕ → ℕ → ℕ
  | 0, x => x
  | f + 1, x =>
    let y := (x + n / x) / 2
    if y < x then isqrtAux n f y else x

/-- Integer square root (Newton iteration, fuel 64). -/
def isqrt (n : ℕ) : ℕ := if n = 0 then 0 else isqrtAux n 64 n

/-- Rational square root, exact whenever numerator and denominator are
perfect squares; used only to instantiate the abstract `sqrt` parameter at
such values. -/
def ratSqrt (q : ℚ) : ℚ := Rat.divInt (isqrt q.num.toNat) (isqrt q.den)

/-- A turn record: the dict fields produced upstream and read by the core
(`abs_start`, `abs_end`, `camera`, `spk_global`, `emb`; the remaining fields
are carried along untouched). -/
structure Turn where
  start : ℚ
  stop : ℚ
  abs_start : ℚ
  abs_end : ℚ
  camera : ℕ
  clip_path : ℕ
  spk_local : ℕ
  text : ℕ
  spk_global : Option ℕ
  emb : List ℚ
deriving DecidableEq, Repr, Inhabited

/-- `iou_time` from `dedupe.py`: interval intersection over union with a
`1e-6` floor on the denominator. -/
def iou_time (a0 a1 b0 b1 : ℚ) : ℚ :=
  let inter := qmax 0 (qsub (qmin a1 b1) (qmax a0 b0))
  let uni := qsub (qadd (qsub a1 a0) (qsub b1 b0)) inter
  qdiv inter (qmax uni (mkRat 1 1000000))

/-- Sum of squares of a vector. -/
def sumSq (v : List ℚ) : ℚ := (v.map (fun x => qmul x x)).foldr qadd 0

/-- `np.linalg.norm`: square root of the sum of squares, via the explicit
`sqrt` parameter standing for the floating-point square root. -/
def l2norm (sqrt : ℚ → ℚ) (v : List ℚ) : ℚ := sqrt (sumSq v)

/-- Dot product (`np.dot`). -/
def dot (a b : List ℚ) : ℚ := (List.zipWith qmul a b).foldr qadd 0

/-- `cosine` from `dedupe.py`: both vectors are divided by
`max(1e-6, norm)` and then dotted. -/
def cosine (sqrt : ℚ → ℚ) (a b : List ℚ) : ℚ :=
  let na := qmax (mkRat 1 1000000) (l2norm sqrt a)
  let nb := qmax (mkRat 1 1000000) (l2norm sqrt b)
  dot (a.map (fun x => qdiv x na)) (b.map (fun x => qdiv x nb))

/-- The sort key order of `hard_dedupe`: lexicographic on
`(abs_start, camera)`. -/
def dedupLE (a b : Turn) : Prop :=
  a.abs_start < b.abs_start ∨ (a.abs_start = b.abs_start ∧ a.camera ≤ b.camera)

instance : DecidableRel dedupLE := fun a b => by
  unfold dedupLE; infer_instance

instance : IsTotal Turn dedupLE := by
  constructor
  intro a b
  unfold dedupLE
  rcases lt_trichotomy a.abs_start b.abs_start with h | h | h
  · exact Or.inl (Or.inl h)
  · rcases Nat.le_total a.camera b.camera with hc | hc
    · exact Or.inl (Or.inr ⟨h, hc⟩)
    · exact Or.inr (Or.inr ⟨h.symm, hc⟩)
  · exact Or.inr (Or.inl h)

instance : IsTrans Turn dedupLE := by
  constructor
  intro a b c hab hbc
  unfold dedupLE at *
  rcases hab with h1 | ⟨e1, c1⟩
  · rcases hbc with h2 | ⟨e2, _⟩
    · exact Or.inl (h1.trans h2)
    · exact Or.inl (e2 ▸ h1)
  · rcases hbc with h2 | ⟨e2, c2⟩
    · exact Or.inl (e1 ▸ h2)
    · exact Or.inr ⟨e1.trans e2, c1.trans c2⟩

/-- Indexing into the turn list (`turns[i]`), totalized with a default. -/
def tGet (ts : List Turn) (i : ℕ) : Turn := ts.getD i default

/-- The inner `for j in range(i+1, n)` scan of `hard_dedupe`, over the list
of remaining indices `js`, updating the `keep` flags.  Mirrors the source:
skip already-dropped `j`, skip different `spk_global`, break once `j`
starts beyond the 1.0 s margin, and on a confirmed duplicate drop the
shorter turn — continuing when `j` is dropped, breaking when `i` is. -/
def scanFrom (sqrt : ℚ → ℚ) (it et : ℚ) (ts : List Turn) (i : ℕ) :
    List ℕ → List Bool → List Bool
  | [], keep => keep
  | j :: js, keep =>
    if keep.getD j true = false then
      scanFrom sqrt it et ts i js keep
    else if (tGet ts i).spk_global ≠ (tGet ts j).spk_global then
      scanFrom sqrt it et ts i js keep
    else if qadd (tGet ts i).abs_end 1 < (tGet ts j).abs_start then
      keep
    else if it ≤ iou_time (tGet ts i).abs_start (tGet ts i).abs_end
        (tGet ts j).abs_start (tGet ts j).abs_end then
      if et ≤ cosine sqrt (tGet ts i).emb (tGet ts j).emb then
        if qsub (tGet ts j).abs_end (tGet ts j).abs_start ≤
            qsub (tGet ts i).abs_end (tGet ts i).abs_start then
          scanFrom sqrt it et ts i js (keep.set j false)
        else
          keep.set i false
      else scanFrom sqrt it et ts i js keep
    else scanFrom sqrt it et ts i js keep

/-- The outer `for i in range(n)` loop of `hard_dedupe`: indices with a
dropped flag or a null `spk_global` are skipped, the rest scan forward. -/
def dedupLoop (sqrt : ℚ → ℚ) (it et : ℚ) (ts : List Turn) :
    List ℕ → List Bool → List Bool
  | [], keep => keep
  | i :: is, keep =>
    if keep.getD i true = false ∨ (tGet ts i).spk_global = none then
      dedupLoop sqrt it et ts is keep
    else
      dedupLoop sqrt it et ts is
        (scanFrom sqrt it et ts i (List.range' (i + 1) (ts.length - (i + 1))) keep)

/-- `sorted(turns, key=lambda t: (t["abs_start"], t["camera"]))`. -/
def sortTurns (turns : List Turn) : List Turn := List.insertionSort dedupLE turns

/-- The final `keep` flags computed by `hard_dedupe` over the sorted list. -/
def dedupKeep (sqrt : ℚ → ℚ) (it et : ℚ) (turns : List Turn) : List Bool :=
  let ts := sortTurns turns
  dedupLoop sqrt it et ts (List.range ts.length) (List.replicate ts.length true)

/-- `[t for k, t in zip(keep, turns) if k]`. -/
def keepFilter : List Bool → List Turn → List Turn
  | k :: ks, t :: ts => if k then t :: keepFilter ks ts else keepFilter ks ts
  | _, _ => []

/-- `hard_dedupe` from `dedupe.py`, with the float square root inside
`cosine` abstracted as `sqrt`. -/
def hard_dedupe (sqrt : ℚ → ℚ) (iou_thresh emb_cos_thresh : ℚ)
    (turns : List Turn) : List Turn :=
  keepFilter (dedupKeep sqrt iou_thresh emb_cos_thresh turns) (sortTurns turns)

/-- `np.random.default_rng`: seeded from `some s`, from OS entropy on
`none`. -/
def np_default_rng {σ : Type} (seeded : ℕ → σ) (entropy : σ) : Option ℕ → σ
  | some s => seeded s
  | none => entropy

/-- Member indices of cluster `c` (`clusters[c]`), in increasing order as
built by the enumeration loop. -/
def memberIdxs (labels : List Int) (c : Int) : List ℕ :=
  (List.range labels.length).filter (fun i => decide (labels.getD i (-1) = c))

/-- The sorted distinct non-noise labels (`sorted(centroids.keys())`). -/
def keysOf (labels : List Int) : List Int :=
  List.insertionSort (fun a b => a ≤ b)
    ((labels.filter (fun v => decide (v ≠ -1))).dedup)

/-- `sklearn.preprocessing.normalize` on one row: divide by the L2 norm,
leaving zero-norm rows unchanged. -/
def sklNormalize (sqrt : ℚ → ℚ) (v : List ℚ) : List ℚ :=
  let n := l2norm sqrt v
  if n = 0 then v else v.map (fun x => qdiv x n)

/-- `np.mean(_, axis=0)` over a nonempty list of equal-length rows. -/
def vecMean : List (List ℚ) → List ℚ
  | [] => []
  | v :: vs =>
    (vs.foldl (fun acc w => List.zipWith qadd acc w) v).map
      (fun x => qdiv x (mkRat (vs.length + 1) 1))

/-- Cluster centroid: mean of the normalized member rows, re-normalized. -/
def centroidOf (sqrt : ℚ → ℚ) (Xn : List (List ℚ)) (idxs : List ℕ) : List ℚ :=
  sklNormalize sqrt (vecMean (idxs.map (fun i => Xn.getD i [])))

/-- Unordered pairs in enumeration order (`for i ...: for j in i+1 ...`). -/
def upairs : List α → List (α × α)
  | [] => []
  | x :: xs => xs.map (fun y => (x, y)) ++ upairs xs

/-- Merge candidates: centroid pairs whose cosine is at least the 0.6 gate,
sorted by descending similarity (`cand.sort(key=lambda x: -x[2])`, a stable
sort). -/
def candidatesOf (sqrt : ℚ → ℚ) (turns : List Turn) (labels : List Int) :
    List (Int × Int × ℚ) :=
  let keys := keysOf labels
  let Xn := turns.map (fun t => sklNormalize sqrt t.emb)
  let cent := fun c => centroidOf sqrt Xn (memberIdxs labels c)
  List.insertionSort (fun x y => y.2.2 ≤ x.2.2)
    ((upairs keys).filterMap (fun p =>
      let s := dot (cent p.1) (cent p.2)
      if mkRat 3 5 ≤ s then some (p.1, p.2, s) else none))

/-- `pairs = [(rng.choice(a), rng.choice(b)) for _ in range(max_pairs)]`:
draw `n` member pairs, threading the generator state. -/
def drawPairs {σ : Type} (choice : σ → ℕ → ℕ × σ) (a b : List ℕ) :
    ℕ → σ → List (ℕ × ℕ) × σ
  | 0, s => ([], s)
  | n + 1, s =>
    let ka := choice s a.length
    let kb := choice ka.2 b.length
    let rest := drawPairs choice a b n kb.2
    ((a.getD (ka.1 % a.length) 0, b.getD (kb.1 % b.length) 0) :: rest.1, rest.2)

/-- `find` of the union-find, with explicit fuel bounding the parent-chain
length (the source's `while` loop; chains never exceed the number of keys).
The source also compresses paths along the way, which rewrites parent
pointers to ancestors and never changes the returned root, so the
in-place compression is elided. -/
def findR (fuel : ℕ) (p : Int → Int) (x : Int) : Int :=
  match fuel with
  | 0 => x
  | f + 1 => if p x = x then x else findR f p (p x)

/-- `union(a, b)`: link the root of `b` under the root of `a` when they
differ. -/
def unionF (fuel : ℕ) (p : Int → Int) (c1 c2 : Int) : Int → Int :=
  let ra := findR fuel p c1
  let rb := findR fuel p c2
  if ra = rb then p else fun x => if x = rb then ra else p x

/-- The candidate loop of `refine_by_verification`: for each candidate in
order, skip empty clusters, draw `max_pairs` member pairs, score each with
`ver` (any failure propagates, as in the source, which has no handler),
and union the two cluster ids when the mean score reaches the threshold.
`np.mean` of an empty list is NaN, which fails the `>=` comparison, hence
the nonemptiness conjunct. -/
def unionPhase {σ ε : Type} (choice : σ → ℕ → ℕ × σ)
    (ver : ℕ → ℕ → Except ε ℚ) (labels : List Int) (thr : ℚ)
    (mp fuel : ℕ) : List (Int × Int × ℚ) → (Int → Int) × σ →
    Except ε ((Int → Int) × σ)
  | [], st => .ok st
  | c :: rest, (p, s) =>
    let a := memberIdxs labels c.1
    let b := memberIdxs labels c.2.1
    if a.isEmpty || b.isEmpty then
      unionPhase choice ver labels thr mp fuel rest (p, s)
    else
      let prs := drawPairs choice a b mp s
      match prs.1.mapM (fun ij => ver ij.1 ij.2) with
      | .error e => .error e
      | .ok scores =>
        if 0 < scores.length ∧
            thr ≤ qdiv (scores.foldr qadd 0) (mkRat scores.length 1) then
          unionPhase choice ver labels thr mp fuel rest
            (unionF fuel p c.1 c.2.1, prs.2)
        else
          unionPhase choice ver labels thr mp fuel rest (p, prs.2)

/-- `root_to_new`: first loop of the relabeling phase, assigning dense new
ids to roots in sorted key order. -/
def assignRoots (F : Int → Int) : List Int → List (Int × Int) → ℕ →
    List (Int × Int) × ℕ
  | [], m, next => (m, next)
  | k :: ks, m, next =>
    match m.lookup (F k) with
    | some _ => assignRoots F ks m next
    | none => assignRoots F ks ((F k, (next : Int)) :: m) (next + 1)

/-- Second loop of the relabeling phase: noise passes through, every other
label is replaced by the dense id of its root. -/
def relabel (labels keys : List Int) (F : Int → Int) : List Int :=
  let m := (assignRoots F keys [] 0).1
  labels.map (fun lab => if lab = -1 then lab else ((m.lookup (F lab)).getD 0))

/-- `refine_by_verification` from `cluster.py`.  The `σ`-typed `entropy`
argument is what an unseeded `np.random.default_rng()` would consume; the
source seeds with the literal 42, so it is passed to `np_default_rng` as
`some 42` and the entropy is never used. -/
def refine_by_verification {σ ε : Type} (sqrt : ℚ → ℚ)
    (choice : σ → ℕ → ℕ × σ) (seeded : ℕ → σ) (entropy : σ)
    (ver : ℕ → ℕ → Except ε ℚ) (turns : List Turn) (labels : List Int)
    (score_threshold : ℚ) (max_pairs : ℕ) : Except ε (List Int) :=
  let keys := keysOf labels
  if keys.isEmpty then .ok labels
  else
    let fuel := keys.length + 1
    let rng := np_default_rng seeded entropy (some 42)
    match unionPhase choice ver labels score_threshold max_pairs fuel
        (candidatesOf sqrt turns labels) (fun x => x, rng) with
    | .error e => .error e
    | .ok st => .ok (relabel labels keys (findR fuel st.1))

/-- A turn with the given embedding and all bookkeeping fields zeroed. -/
def mkT (e : List ℚ) : Turn :=
  { start := 0, stop := 0, abs_start := 0, abs_end := 0, camera := 0,
    clip_path := 0, spk_local := 0, text := 0, spk_global := none, emb := e }

/-- Unit vector `(1, 0, 0)`. -/
def embA : List ℚ := [1, 0, 0]

/-- Unit vector `(119/169, 120/169, 0)`; its cosine with `embA` is
`119/169 ≈ 0.704`, above the 0.6 candidate gate. -/
def embB : List ℚ := [mkRat 119 169, mkRat 120 169, 0]

/-- Unit vector `(24/41, 9/41, 32/41)`; its cosines with `embA` and `embB`
are `24/41 ≈ 0.585` and `3936/6929 ≈ 0.568`, both below the 0.6 gate, while
its cosine with the normalized mean of `embA` and `embB` (the vector
`(12/13, 5/13, 0)`, whose norm `24336/28561 = (156/169)^2` is a perfect
square) is `333/533 ≈ 0.625`, above the gate. -/
def embC : List ℚ := [mkRat 24 41, mkRat 9 41, mkRat 32 41]

/-- A trivial generator state: always draw index 0. -/
def unitChoice : Unit → ℕ → ℕ × Unit := fun s _ => (0, s)

/-- Seeding for the trivial generator. -/
def unitSeed : ℕ → Unit := fun _ => ()

/-- A verifier that scores every pair 1. -/
def verAllOne : ℕ → ℕ → Except Unit ℚ := fun _ _ => Except.ok 1

/-- A verifier whose segment extraction / scoring always raises. -/
def verAllErr : ℕ → ℕ → Except Unit ℚ := fun _ _ => Except.error ()

/-- A 10-second turn of speaker 0 on camera 0 over `[0, 10]`. -/
def dT1 : Turn :=
  { start := 0, stop := 0, abs_start := 0, abs_end := 10, camera := 0,
    clip_path := 0, spk_local := 0, text := 0, spk_global := some 0,
    emb := [1, 0] }

/-- A 4-second turn of speaker 0 on camera 1 over `[5, 9]`: same speaker as
`dT1`, IoU `2/5`, cosine 1. -/
def dT2 : Turn :=
  { start := 0, stop := 0, abs_start := 5, abs_end := 9, camera := 1,
    clip_path := 0, spk_local := 0, text := 0, spk_global := some 0,
    emb := [1, 0] }

/-- A turn far beyond the margin of `dT1`: speaker 1 over `[20, 25]`. -/
def dT3 : Turn :=
  { start := 0, stop := 0, abs_start := 20, abs_end := 25, camera := 0,
    clip_path := 0, spk_local := 0, text := 0, spk_global := some 1,
    emb := [0, 1] }

/-- The duplicate-confirmation conditions of the scan for the ordered index
pair `(i, j)`, `i` before `j` in the sorted list: identical (and non-null)
`spk_global`, interval IoU at least `iou_thresh`, embedding cosine at least
`emb_cos_thresh`. -/
def PairDup (sqrt : ℚ → ℚ) (it et : ℚ) (ts : List Turn) (i j : ℕ) : Prop :=
  (tGet ts i).spk_global = (tGet ts j).spk_global ∧
  (tGet ts i).spk_global ≠ none ∧
  it ≤ iou_time (tGet ts i).abs_start (tGet ts i).abs_end
    (tGet ts j).abs_start (tGet ts j).abs_end ∧
  et ≤ cosine sqrt (tGet ts i).emb (tGet ts j).emb

/-- Every dropped position is justified by a confirmed duplicate partner at
some other position of the sorted list. -/
def RemovalJustified (sqrt : ℚ → ℚ) (it et : ℚ) (ts : List Turn)
    (keep : List Bool) : Prop :=
  ∀ p, keep.getD p true = false → ∃ q, q < ts.length ∧
    ((q < p ∧ PairDup sqrt it et ts q p) ∨
     (p < q ∧ PairDup sqrt it et ts p q))

/-- A short turn of speaker 0 over `[0, 4]` on camera 0. -/
def dT4 : Turn :=
  { start := 0, stop := 0, abs_start := 0, abs_end := 4, camera := 0,
    clip_path := 0, spk_local := 0, text := 0, spk_global := some 0,
    emb := [1, 0] }

/-- A long turn of speaker 0 over `[2, 12]` on camera 1. -/
def dT5 : Turn :=
  { start := 0, stop := 0, abs_start := 2, abs_end := 12, camera := 1,
    clip_path := 0, spk_local := 0, text := 0, spk_global := some 0,
    emb := [1, 0] }

/-- Equal-duration turn of speaker 0 over `[0, 10]` on camera 0. -/
def dT6 : Turn :=
  { start := 0, stop := 0, abs_start := 0, abs_end := 10, camera := 0,
    clip_path := 0, spk_local := 0, text := 0, spk_global := some 0,
    emb := [1, 0] }

/-- Equal-duration turn of speaker 0 over `[1, 11]` on camera 1. -/
def dT7 : Turn :=
  { start := 0, stop := 0, abs_start := 1, abs_end := 11, camera := 1,
    clip_path := 0, spk_local := 0, text := 0, spk_global := some 0,
    emb := [1, 0] }

/-- All values stored in the root map are naturals below the counter. -/
def RootMapBounded (m : List (Int × Int)) (n : ℕ) : Prop :=
  ∀ r v, m.lookup r = some v → ∃ t : ℕ, t < n ∧ v = (t : Int)

/-- Number of distinct non-noise label values. -/
def distinctNN (l : List Int) : ℕ :=
  ((l.filter (fun v => decide (v ≠ -1))).dedup).length

/-- The integers `0, 1, ..., n-1` as a list. -/
def natRange (n : ℕ) : List Int := List.map (fun t : ℕ => (t : Int)) (List.range n)

/-- A verifier that scores every pair 0 (below any positive threshold). -/
def verAllZero : ℕ → ℕ → Except Unit ℚ := fun _ _ => Except.ok 0

/-! ## Theorems -/

theorem qadd_eq (a b : ℚ) : qadd a b = a + b := by
  have h1 : (a.den : ℚ) ≠ 0 := Nat.cast_ne_zero.mpr a.den_nz
  have h2 : (b.den : ℚ) ≠ 0 := Nat.cast_ne_zero.mpr b.den_nz
  rw [qadd, Rat.mkRat_eq_div]
  push_cast
  conv_rhs => rw [← Rat.num_div_den a, ← Rat.num_div_den b]
  field_simp

theorem qsub_eq (a b : ℚ) : qsub a b = a - b := by
  have h1 : (a.den : ℚ) ≠ 0 := Nat.cast_ne_zero.mpr a.den_nz
  have h2 : (b.den : ℚ) ≠ 0 := Nat.cast_ne_zero.mpr b.den_nz
  rw [qsub, Rat.mkRat_eq_div]
  push_cast
  conv_rhs => rw [← Rat.num_div_den a, ← Rat.num_div_den b]
  field_simp
  ring

theorem qmul_eq (a b : ℚ) : qmul a b = a * b := by
  have h1 : (a.den : ℚ) ≠ 0 := Nat.cast_ne_zero.mpr a.den_nz
  have h2 : (b.den : ℚ) ≠ 0 := Nat.cast_ne_zero.mpr b.den_nz
  rw [qmul, Rat.mkRat_eq_div]
  push_cast
  conv_rhs => rw [← Rat.num_div_den a, ← Rat.num_div_den b]
  field_simp

theorem qdiv_eq (a b : ℚ) : qdiv a b = a / b := by
  rw [qdiv, Rat.divInt_eq_div]
  rcases eq_or_ne b 0 with rfl | hb
  · simp
  · have h1 : (a.den : ℚ) ≠ 0 := Nat.cast_ne_zero.mpr a.den_nz
    have h2 : (b.den : ℚ) ≠ 0 := Nat.cast_ne_zero.mpr b.den_nz
    have h3 : (b.num : ℚ) ≠ 0 := by
      exact_mod_cast Rat.num_ne_zero.mpr hb
    push_cast
    conv_rhs => rw [← Rat.num_div_den a, ← Rat.num_div_den b]
    field_simp

theorem qmax_eq (a b : ℚ) : qmax a b = max a b := (max_def a b).symm

theorem qmin_eq (a b : ℚ) : qmin a b = min a b := (min_def a b).symm

theorem getD_set_self {α : Type} (l : List α) (i : ℕ) (b d : α)
    (h : i < l.length) : (l.set i b).getD i d = b := by
  induction l generalizing i with
  | nil => simp at h
  | cons x xs ih =>
    cases i with
    | zero => rfl
    | succ n => simpa using ih n (by simpa using h)

theorem getD_set_ne {α : Type} (l : List α) {i j : ℕ} (b d : α)
    (h : i ≠ j) : (l.set i b).getD j d = l.getD j d := by
  induction l generalizing i j with
  | nil => rfl
  | cons x xs ih =>
    cases i with
    | zero =>
      cases j with
      | zero => exact absurd rfl h
      | succ m => rfl
    | succ n =>
      cases j with
      | zero => rfl
      | succ m => simpa using ih (fun hnm => h (by simpa using hnm))

theorem keepFilter_sublist : ∀ (ks : List Bool) (ts : List Turn),
    List.Sublist (keepFilter ks ts) ts
  | [], [] => List.Sublist.refl _
  | [], _ :: ts => by
    simp [keepFilter]
  | _ :: _, [] => by simp [keepFilter]
  | k :: ks, t :: ts => by
    by_cases hk : k
    · simpa [keepFilter, hk] using (keepFilter_sublist ks ts).cons₂ t
    · simpa [keepFilter, hk] using (keepFilter_sublist ks ts).cons t

theorem keepFilter_mem_of_getD : ∀ (ks : List Bool) (ts : List Turn)
    (p : ℕ) (h : p < ts.length), ks.length = ts.length →
    ks.getD p true = true → ts.get ⟨p, h⟩ ∈ keepFilter ks ts := by
  intro ks
  induction ks with
  | nil => intro ts p h hl; simp at h hl; omega
  | cons k ks ih =>
    intro ts p h hl hk
    cases ts with
    | nil => simp at h
    | cons t ts =>
      cases p with
      | zero =>
        simp only [List.getD_cons_zero] at hk
        simp [keepFilter, hk]
      | succ n =>
        simp only [List.getD_cons_succ] at hk
        have hmem := ih ts n (by simpa using h) (by simpa using hl) hk
        by_cases hkb : k
        · simp only [keepFilter, hkb, if_true]
          exact List.mem_cons_of_mem t hmem
        · simp only [keepFilter, hkb, if_false]
          exact hmem

/-- Claim C7 counterexample: two identical intervals of positive length
`2^-21 < 1e-6` have IoU `2^-21 / 1e-6 < 1`, so "identical (positive-length)
intervals yield IoU = 1.0" fails as stated. -/
theorem iou_time_tiny_identical_ne_one :
    iou_time 0 (mkRat 1 2097152) 0 (mkRat 1 2097152) ≠ 1 := by decide

/-- Claim C7 (amended): `iou_time` is intersection over
`max(union, 1e-6)`; `[0,10]` vs `[5,15]` gives `1/3`; identical intervals
of length at least `1e-6` give 1; disjoint intervals give 0.  (Identical
intervals shorter than `1e-6` give length/`1e-6` < 1 instead.) -/
theorem iou_time_values :
    (∀ a0 a1 b0 b1 : ℚ, iou_time a0 a1 b0 b1 =
      max 0 (min a1 b1 - max a0 b0) /
        max ((a1 - a0) + (b1 - b0) - max 0 (min a1 b1 - max a0 b0))
          (1 / 1000000)) ∧
    iou_time 0 10 5 15 = 1 / 3 ∧
    (∀ a0 a1 : ℚ, mkRat 1 1000000 ≤ qsub a1 a0 → iou_time a0 a1 a0 a1 = 1) ∧
    (∀ a0 a1 b0 b1 : ℚ, a1 ≤ b0 ∨ b1 ≤ a0 → iou_time a0 a1 b0 b1 = 0) := by
  have hmk : (mkRat 1 1000000 : ℚ) = 1 / 1000000 := by
    rw [Rat.mkRat_eq_div]; norm_num
  refine ⟨?_, ?_, ?_, ?_⟩
  · intro a0 a1 b0 b1
    simp only [iou_time, qmax_eq, qmin_eq, qsub_eq, qadd_eq, qdiv_eq, hmk]
  · have h : iou_time 0 10 5 15 = mkRat 1 3 := by decide
    rw [h, Rat.mkRat_eq_div]; norm_num
  · intro a0 a1 h
    rw [qsub_eq, hmk] at h
    have hd : (0 : ℚ) < a1 - a0 := lt_of_lt_of_le (by norm_num) h
    simp only [iou_time, qmax_eq, qmin_eq, qsub_eq, qadd_eq, qdiv_eq, hmk,
      min_self, max_self]
    rw [max_eq_right hd.le]
    have huni : (a1 - a0) + (a1 - a0) - (a1 - a0) = a1 - a0 := by ring
    rw [huni, max_eq_left h, div_self hd.ne']
  · intro a0 a1 b0 b1 h
    have hint : min a1 b1 - max a0 b0 ≤ 0 := by
      rcases h with h | h
      · have : min a1 b1 ≤ max a0 b0 :=
          le_trans (min_le_left _ _) (le_trans h (le_max_right _ _))
        linarith
      · have : min a1 b1 ≤ max a0 b0 :=
          le_trans (min_le_right _ _) (le_trans h (le_max_left _ _))
        linarith
    simp only [iou_time, qmax_eq, qmin_eq, qsub_eq, qadd_eq, qdiv_eq, hmk]
    rw [max_eq_left hint, zero_div]

/-- Witness for `iou_time_values`: the amended statements at `[0,10]`,
`[5,15]`, at the identical interval `[2,5]`, and at disjoint `[0,1]`,
`[3,4]`. -/
theorem iou_time_values_witness :
    iou_time 0 10 5 15 = 1 / 3 ∧ iou_time 2 5 2 5 = 1 ∧
    iou_time 0 1 3 4 = 0 :=
  ⟨iou_time_values.2.1, iou_time_values.2.2.1 2 5 (by decide),
    iou_time_values.2.2.2 0 1 3 4 (Or.inl (by norm_num))⟩

/-- Claim C9: `refine_by_verification` seeds its generator with the literal
42 (`np.random.default_rng(42)`), so its result does not depend on the
process entropy: two invocations on identical inputs return identical
label arrays. -/
theorem refine_by_verification_reproducible {σ ε : Type} (sqrt : ℚ → ℚ)
    (choice : σ → ℕ → ℕ × σ) (seeded : ℕ → σ) (entropy1 entropy2 : σ)
    (ver : ℕ → ℕ → Except ε ℚ) (turns : List Turn) (labels : List Int)
    (thr : ℚ) (mp : ℕ) :
    refine_by_verification sqrt choice seeded entropy1 ver turns labels thr mp =
    refine_by_verification sqrt choice seeded entropy2 ver turns labels thr mp := rfl

/-- Claim C8: `hard_dedupe` returns a sublist of the input sorted by
`(abs_start, camera)`: every surviving turn is an element of the input
batch (hence none of its fields, in particular `spk_global`, is modified),
and the output is in ascending `(abs_start, camera)` order. -/
theorem hard_dedupe_sublist_sorted (sqrt : ℚ → ℚ) (it et : ℚ)
    (turns : List Turn) :
    (∀ t ∈ hard_dedupe sqrt it et turns, t ∈ turns) ∧
    List.Sorted dedupLE (hard_dedupe sqrt it et turns) ∧
    List.Sublist (hard_dedupe sqrt it et turns) (sortTurns turns) := by
  have hsub : List.Sublist (hard_dedupe sqrt it et turns) (sortTurns turns) :=
    keepFilter_sublist _ _
  have hsorted : List.Sorted dedupLE (sortTurns turns) :=
    List.sorted_insertionSort dedupLE turns
  refine ⟨?_, hsorted.sublist hsub, hsub⟩
  intro t ht
  have h1 : t ∈ sortTurns turns := hsub.mem ht
  exact (List.perm_insertionSort dedupLE turns).mem_iff.mp h1

theorem mem_keysOf {labels : List Int} {c : Int} :
    c ∈ keysOf labels ↔ c ∈ labels ∧ c ≠ -1 := by
  simp [keysOf, (List.perm_insertionSort _ _).mem_iff, List.mem_filter]

theorem memberIdxs_ne_nil {labels : List Int} {c : Int} (h : c ∈ labels) :
    memberIdxs labels c ≠ [] := by
  obtain ⟨i, hi, rfl⟩ := List.getElem_of_mem h
  apply List.ne_nil_of_mem (a := i)
  simp [memberIdxs, List.mem_filter, hi]

theorem mem_upairs {l : List α} {p : α × α} (h : p ∈ upairs l) :
    p.1 ∈ l ∧ p.2 ∈ l := by
  induction l with
  | nil => simp [upairs] at h
  | cons x xs ih =>
    simp only [upairs, List.mem_append, List.mem_map] at h
    rcases h with ⟨y, hy, rfl⟩ | h
    · exact ⟨List.mem_cons_self _ _, List.mem_cons_of_mem _ hy⟩
    · exact ⟨List.mem_cons_of_mem _ (ih h).1, List.mem_cons_of_mem _ (ih h).2⟩

theorem candidatesOf_mem_keys {sqrt : ℚ → ℚ} {turns : List Turn}
    {labels : List Int} {x : Int × Int × ℚ}
    (h : x ∈ candidatesOf sqrt turns labels) :
    x.1 ∈ keysOf labels ∧ x.2.1 ∈ keysOf labels := by
  rw [candidatesOf, (List.perm_insertionSort _ _).mem_iff,
    List.mem_filterMap] at h
  obtain ⟨p, hp, hx⟩ := h
  have hmem := mem_upairs hp
  by_cases hs : mkRat 3 5 ≤ dot
      (centroidOf sqrt (turns.map fun t => sklNormalize sqrt t.emb)
        (memberIdxs labels p.1))
      (centroidOf sqrt (turns.map fun t => sklNormalize sqrt t.emb)
        (memberIdxs labels p.2))
  · rw [if_pos hs] at hx
    cases hx
    exact hmem
  · rw [if_neg hs] at hx
    cases hx

theorem candidatesOf_of_keys_nil {sqrt : ℚ → ℚ} {turns : List Turn}
    {labels : List Int} (h : keysOf labels = []) :
    candidatesOf sqrt turns labels = [] := by
  rw [candidatesOf, h]
  rfl

theorem error_bind {ε α β : Type} (e : ε) (g : α → Except ε β) :
    (Except.error e >>= g) = Except.error e := rfl

theorem unionPhase_all_error {σ ε : Type} (choice : σ → ℕ → ℕ × σ)
    (labels : List Int) (thr : ℚ) (mp fuel : ℕ) (e : ε)
    (cand : List (Int × Int × ℚ)) (st : (Int → Int) × σ)
    (hcand : cand ≠ [])
    (hmem : ∀ c ∈ cand, memberIdxs labels c.1 ≠ [] ∧
      memberIdxs labels c.2.1 ≠ [])
    (hmp : 1 ≤ mp) :
    unionPhase choice (fun _ _ => Except.error e) labels thr mp fuel cand st =
      Except.error e := by
  obtain ⟨p, s⟩ := st
  cases cand with
  | nil => exact absurd rfl hcand
  | cons c rest =>
    obtain ⟨ha, hb⟩ := hmem c (List.mem_cons_self _ _)
    cases mp with
    | zero => exact absurd hmp (by decide)
    | succ m =>
      rw [unionPhase, if_neg (by simp [ha, hb])]
      rfl

/-- Claim C2 counterexample: with two singleton clusters whose centroid
cosine `119/169` passes the 0.6 gate, a verifier whose single sampled pair
raises makes `refine_by_verification` return that error — the refinement
pass is aborted instead of skipping the sample and continuing. -/
theorem refine_single_failure_aborts_pass :
    refine_by_verification ratSqrt unitChoice unitSeed () verAllErr
      [mkT embA, mkT embB] [0, 1] (mkRat 1 2) 1 = Except.error () := rfl

/-- Claim C2 (amended): a failure of segment extraction or verification for
a sampled pair is not skipped: the exception propagates out of
`refine_by_verification` immediately, aborting the whole refinement pass
with that error, whenever there is at least one merge candidate and at
least one pair is sampled. -/
theorem refine_failure_propagates {σ ε : Type} (sqrt : ℚ → ℚ)
    (choice : σ → ℕ → ℕ × σ) (seeded : ℕ → σ) (entropy : σ) (e : ε)
    (turns : List Turn) (labels : List Int) (thr : ℚ) (mp : ℕ)
    (hcand : candidatesOf sqrt turns labels ≠ []) (hmp : 1 ≤ mp) :
    refine_by_verification sqrt choice seeded entropy
      (fun _ _ => Except.error e) turns labels thr mp = Except.error e := by
  have hkeys : keysOf labels ≠ [] := by
    intro hnil
    exact hcand (candidatesOf_of_keys_nil hnil)
  rw [refine_by_verification]
  rw [if_neg (by simp [hkeys])]
  have hmem : ∀ c ∈ candidatesOf sqrt turns labels,
      memberIdxs labels c.1 ≠ [] ∧ memberIdxs labels c.2.1 ≠ [] := by
    intro c hc
    obtain ⟨h1, h2⟩ := candidatesOf_mem_keys hc
    exact ⟨memberIdxs_ne_nil (mem_keysOf.mp h1).1,
      memberIdxs_ne_nil (mem_keysOf.mp h2).1⟩
  dsimp only
  rw [unionPhase_all_error choice labels thr mp _ e _ _ hcand hmem hmp]

/-- Witness for `refine_failure_propagates`: the gate-passing singleton
clusters of `embA`, `embB` with two sampled pairs. -/
theorem refine_failure_propagates_witness :
    refine_by_verification ratSqrt unitChoice unitSeed ()
      (fun _ _ => Except.error ()) [mkT embA, mkT embB] [0, 1]
      (mkRat 1 2) 2 = Except.error () :=
  refine_failure_propagates ratSqrt unitChoice unitSeed () ()
    [mkT embA, mkT embB] [0, 1] (mkRat 1 2) 2 (by decide) (by decide)

/-- Claim C6 counterexample: with three singleton clusters on the unit
vectors `embA`, `embB`, `embC` and a verifier that scores every pair 1,
the first pass merges clusters 0 and 1 (the only centroid pair above the
0.6 gate) and returns `[0, 0, 1]`; re-running on `[0, 0, 1]` the merged
cluster's centroid `(12/13, 5/13, 0)` now passes the gate against `embC`
(cosine `333/533`), so the second pass merges again and returns
`[0, 0, 0] ≠ [0, 0, 1]` — refinement is not a fixed point after one pass
even though the verifier's responses are unchanged. -/
theorem refine_not_idempotent :
    refine_by_verification ratSqrt unitChoice unitSeed () verAllOne
      [mkT embA, mkT embB, mkT embC] [0, 1, 2] (mkRat 1 2) 1 =
        Except.ok [0, 0, 1] ∧
    refine_by_verification ratSqrt unitChoice unitSeed () verAllOne
      [mkT embA, mkT embB, mkT embC] [0, 0, 1] (mkRat 1 2) 1 =
        Except.ok [0, 0, 0] ∧
    ([0, 0, 0] : List Int) ≠ [0, 0, 1] :=
  ⟨rfl, rfl, by decide⟩

theorem tGet_eq_get (ts : List Turn) (p : ℕ) (h : p < ts.length) :
    tGet ts p = ts.get ⟨p, h⟩ := by
  simp [tGet, List.getD_eq_getElem?_getD, List.getElem?_eq_getElem h]

theorem dedupLE_abs_start {a b : Turn} (h : dedupLE a b) :
    a.abs_start ≤ b.abs_start := by
  rcases h with h | ⟨h, _⟩
  · exact h.le
  · exact h.le

theorem scanFrom_of_all_beyond (sqrt : ℚ → ℚ) (it et : ℚ) (ts : List Turn)
    (i : ℕ) (js : List ℕ) (keep : List Bool)
    (h : ∀ j ∈ js, qadd (tGet ts i).abs_end 1 < (tGet ts j).abs_start) :
    scanFrom sqrt it et ts i js keep = keep := by
  induction js generalizing keep with
  | nil => rfl
  | cons j js ih =>
    have hj := h j (List.mem_cons_self _ _)
    have htail : ∀ x ∈ js, qadd (tGet ts i).abs_end 1 < (tGet ts x).abs_start :=
      fun x hx => h x (List.mem_cons_of_mem _ hx)
    rw [scanFrom]
    split_ifs with h1 h2
    · exact ih keep htail
    · exact ih keep htail
    · rfl

theorem scanFrom_takeWhile (sqrt : ℚ → ℚ) (it et : ℚ) (ts : List Turn)
    (i : ℕ) (js : List ℕ) (keep : List Bool)
    (hmono : js.Pairwise
      (fun a b => (tGet ts a).abs_start ≤ (tGet ts b).abs_start)) :
    scanFrom sqrt it et ts i js keep =
    scanFrom sqrt it et ts i
      (js.takeWhile
        (fun j => decide ((tGet ts j).abs_start ≤ qadd (tGet ts i).abs_end 1)))
      keep := by
  induction js generalizing keep with
  | nil => rfl
  | cons j js ih =>
    rw [List.pairwise_cons] at hmono
    obtain ⟨hhead, htail⟩ := hmono
    by_cases hj : (tGet ts j).abs_start ≤ qadd (tGet ts i).abs_end 1
    · rw [List.takeWhile_cons_of_pos (by simpa using hj)]
      simp only [scanFrom]
      split_ifs with h1 h2 h3 h4 h5 h6
      · exact ih keep htail
      · exact ih keep htail
      · rfl
      · exact ih (keep.set j false) htail
      · rfl
      · exact ih keep htail
      · exact ih keep htail
    · rw [List.takeWhile_cons_of_neg (by simpa using hj)]
      have hall : ∀ x ∈ j :: js,
          qadd (tGet ts i).abs_end 1 < (tGet ts x).abs_start := by
        intro x hx
        rcases List.mem_cons.mp hx with rfl | hx'
        · exact not_le.mp hj
        · exact lt_of_lt_of_le (not_le.mp hj) (hhead x hx')
      rw [scanFrom_of_all_beyond sqrt it et ts i _ keep hall]
      rfl

/-- Claim C5: over a turn list sorted by `(abs_start, camera)`, the forward
scan from turn `i` behaves exactly as if it were cut off at the first index
`j` whose `abs_start` exceeds `abs_end(i) + 1.0` (the hard-coded 1.0 s
margin): the scan's result only depends on (and only ever examines pairs
in) the prefix within the margin. -/
theorem hard_dedupe_scan_margin_bound (sqrt : ℚ → ℚ) (it et : ℚ)
    (ts : List Turn) (i k : ℕ) (keep : List Bool)
    (hsorted : List.Sorted dedupLE ts) (hlen : i + 1 + k ≤ ts.length) :
    scanFrom sqrt it et ts i (List.range' (i + 1) k) keep =
    scanFrom sqrt it et ts i
      ((List.range' (i + 1) k).takeWhile
        (fun j => decide ((tGet ts j).abs_start ≤ qadd (tGet ts i).abs_end 1)))
      keep := by
  apply scanFrom_takeWhile
  have hlt : (List.range' (i + 1) k).Pairwise (· < ·) :=
    List.pairwise_lt_range' (i + 1) k
  refine hlt.imp_of_mem ?_
  intro a b ha hb hab
  have ha' : a < ts.length := by
    have := (List.mem_range'_1.mp ha).2
    omega
  have hb' : b < ts.length := by
    have := (List.mem_range'_1.mp hb).2
    omega
  rw [tGet_eq_get ts a ha', tGet_eq_get ts b hb']
  exact dedupLE_abs_start
    (hsorted.rel_get_of_lt (a := ⟨a, ha'⟩) (b := ⟨b, hb'⟩) hab)

/-- Witness for `hard_dedupe_scan_margin_bound`: scanning from `dT1` over
`[dT1, dT2, dT3]`, the scan over indices `[1, 2]` equals the scan cut off
before index 2 (`dT3` starts at 20, beyond `10 + 1`). -/
theorem hard_dedupe_scan_margin_bound_witness :
    scanFrom ratSqrt (mkRat 1 4) (mkRat 9 10) [dT1, dT2, dT3] 0
      (List.range' 1 2) [true, true, true] =
    scanFrom ratSqrt (mkRat 1 4) (mkRat 9 10) [dT1, dT2, dT3] 0
      ((List.range' 1 2).takeWhile
        (fun j => decide ((tGet [dT1, dT2, dT3] j).abs_start ≤
          qadd (tGet [dT1, dT2, dT3] 0).abs_end 1)))
      [true, true, true] :=
  hard_dedupe_scan_margin_bound ratSqrt (mkRat 1 4) (mkRat 9 10)
    [dT1, dT2, dT3] 0 2 [true, true, true] (by decide) (by decide)

theorem scanFrom_length (sqrt : ℚ → ℚ) (it et : ℚ) (ts : List Turn)
    (i : ℕ) : ∀ (js : List ℕ) (keep : List Bool),
    (scanFrom sqrt it et ts i js keep).length = keep.length := by
  intro js
  induction js with
  | nil => intro keep; rfl
  | cons j js ih =>
    intro keep
    rw [scanFrom]
    split_ifs with h1 h2 h3 h4 h5 h6
    · exact ih keep
    · exact ih keep
    · rfl
    · rw [ih (keep.set j false)]; exact List.length_set keep j false
    · exact List.length_set keep i false
    · exact ih keep
    · exact ih keep

theorem scanFrom_justified (sqrt : ℚ → ℚ) (it et : ℚ) (ts : List Turn)
    (i : ℕ) (hi : i < ts.length) (hspk : (tGet ts i).spk_global ≠ none) :
    ∀ js : List ℕ, (∀ j ∈ js, i < j ∧ j < ts.length) →
    ∀ keep : List Bool,
    RemovalJustified sqrt it et ts keep →
    RemovalJustified sqrt it et ts (scanFrom sqrt it et ts i js keep) := by
  intro js
  induction js with
  | nil => intro _ keep hJ; rw [scanFrom]; exact hJ
  | cons j js ih =>
    intro hjs keep hJ
    obtain ⟨hij, hjlen⟩ := hjs j (List.mem_cons_self _ _)
    have htail : ∀ x ∈ js, i < x ∧ x < ts.length :=
      fun x hx => hjs x (List.mem_cons_of_mem _ hx)
    rw [scanFrom]
    split_ifs with h1 h2 h3 h4 h5 h6
    · exact ih htail keep hJ
    · exact ih htail keep hJ
    · exact hJ
    · refine ih htail (keep.set j false) ?_
      intro p hp
      by_cases hpj : p = j
      · subst hpj
        exact ⟨i, hi, Or.inl ⟨hij, not_ne_iff.mp h2, hspk, h4, h5⟩⟩
      · rw [getD_set_ne keep false true (fun he => hpj he.symm)] at hp
        exact hJ p hp
    · intro p hp
      by_cases hpi : p = i
      · subst hpi
        exact ⟨j, hjlen, Or.inr ⟨hij, not_ne_iff.mp h2, hspk, h4, h5⟩⟩
      · rw [getD_set_ne keep false true (fun he => hpi he.symm)] at hp
        exact hJ p hp
    · exact ih htail keep hJ
    · exact ih htail keep hJ

theorem dedupLoop_length (sqrt : ℚ → ℚ) (it et : ℚ) (ts : List Turn) :
    ∀ (is : List ℕ) (keep : List Bool),
    (dedupLoop sqrt it et ts is keep).length = keep.length := by
  intro is
  induction is with
  | nil => intro keep; rfl
  | cons i is ih =>
    intro keep
    rw [dedupLoop]
    split_ifs with h1
    · exact ih keep
    · rw [ih _]; exact scanFrom_length sqrt it et ts i _ keep

theorem dedupLoop_justified (sqrt : ℚ → ℚ) (it et : ℚ) (ts : List Turn) :
    ∀ is : List ℕ, (∀ x ∈ is, x < ts.length) →
    ∀ keep : List Bool,
    RemovalJustified sqrt it et ts keep →
    RemovalJustified sqrt it et ts (dedupLoop sqrt it et ts is keep) := by
  intro is
  induction is with
  | nil => intro _ keep hJ; rw [dedupLoop]; exact hJ
  | cons i is ih =>
    intro his keep hJ
    have hi : i < ts.length := his i (List.mem_cons_self _ _)
    have htail : ∀ x ∈ is, x < ts.length :=
      fun x hx => his x (List.mem_cons_of_mem _ hx)
    rw [dedupLoop]
    split_ifs with h1
    · exact ih htail keep hJ
    · push_neg at h1
      refine ih htail _ ?_
      refine scanFrom_justified sqrt it et ts i hi h1.2 _ ?_ keep hJ
      intro j hj
      have hmem := List.mem_range'_1.mp hj
      omega

/-- Claim C1: `hard_dedupe` drops a (sorted) position only when some other
position carries the identical non-null `spk_global`, their intervals'
IoU reaches `iou_thresh` and their embedding cosine reaches
`emb_cos_thresh`; in particular a turn whose `spk_global` is null is never
removed. -/
theorem hard_dedupe_removal_only_for_duplicates (sqrt : ℚ → ℚ)
    (it et : ℚ) (turns : List Turn) :
    RemovalJustified sqrt it et (sortTurns turns)
      (dedupKeep sqrt it et turns) ∧
    (∀ t ∈ turns, t.spk_global = none → t ∈ hard_dedupe sqrt it et turns) := by
  have hJ : RemovalJustified sqrt it et (sortTurns turns)
      (dedupKeep sqrt it et turns) := by
    apply dedupLoop_justified
    · intro x hx; exact List.mem_range.mp hx
    · intro p hp
      rw [List.getD_eq_getElem?_getD, List.getElem?_replicate] at hp
      by_cases hlt : p < (sortTurns turns).length <;> simp [hlt] at hp
  refine ⟨hJ, ?_⟩
  intro t ht hnone
  have hts : t ∈ sortTurns turns :=
    (List.perm_insertionSort dedupLE turns).symm.mem_iff.mp ht
  obtain ⟨⟨p, hp⟩, hget⟩ := List.mem_iff_get.mp hts
  have hkeep : (dedupKeep sqrt it et turns).getD p true = true := by
    by_contra hk
    have hk' : (dedupKeep sqrt it et turns).getD p true = false := by
      simpa using hk
    obtain ⟨q, _, hcase⟩ := hJ p hk'
    have hpt : tGet (sortTurns turns) p = t := by
      rw [tGet_eq_get _ p hp, hget]
    rcases hcase with ⟨_, hd⟩ | ⟨_, hd⟩
    · exact (hpt ▸ hd.1 ▸ hd.2.1) hnone
    · exact (hpt ▸ hd.2.1) hnone
  rw [hard_dedupe, ← hget]
  refine keepFilter_mem_of_getD _ _ p hp ?_ hkeep
  rw [dedupKeep]
  rw [dedupLoop_length, List.length_replicate]

/-- Witness for `hard_dedupe_removal_only_for_duplicates`: on `[dT1, dT2]`
position 1 (the shorter turn `dT2`) is dropped, and the claim theorem
produces its confirmed duplicate partner. -/
theorem hard_dedupe_removal_only_for_duplicates_witness :
    ∃ q, q < (sortTurns [dT1, dT2]).length ∧
      ((q < 1 ∧ PairDup ratSqrt (mkRat 1 4) (mkRat 9 10)
          (sortTurns [dT1, dT2]) q 1) ∨
       (1 < q ∧ PairDup ratSqrt (mkRat 1 4) (mkRat 9 10)
          (sortTurns [dT1, dT2]) 1 q)) :=
  (hard_dedupe_removal_only_for_duplicates ratSqrt (mkRat 1 4) (mkRat 9 10)
    [dT1, dT2]).1 1 (by decide)

/-- Evaluation of `hard_dedupe` on a confirmed-duplicate pair (`t1` first
in sort order): the turn of weakly greater duration survives, ties going to
`t1` through the `di >= dj` comparison. -/
theorem hard_dedupe_pair (sqrt : ℚ → ℚ) (it et : ℚ) (t1 t2 : Turn)
    (hle : dedupLE t1 t2)
    (hspk : t1.spk_global = t2.spk_global)
    (hsome : t1.spk_global ≠ none)
    (hmargin : ¬ qadd t1.abs_end 1 < t2.abs_start)
    (hiou : it ≤ iou_time t1.abs_start t1.abs_end t2.abs_start t2.abs_end)
    (hcos : et ≤ cosine sqrt t1.emb t2.emb) :
    hard_dedupe sqrt it et [t1, t2] =
      if qsub t2.abs_end t2.abs_start ≤ qsub t1.abs_end t1.abs_start
      then [t1] else [t2] := by
  have hsort : sortTurns [t1, t2] = [t1, t2] := by
    unfold sortTurns
    simp [List.insertionSort, List.orderedInsert, hle]
  rw [hard_dedupe, dedupKeep, hsort]
  show keepFilter (dedupLoop sqrt it et [t1, t2] [0, 1] [true, true])
    [t1, t2] = _
  rw [dedupLoop, if_neg (by simp [tGet, hsome]),
    show List.range' (0 + 1) ([t1, t2].length - (0 + 1)) = [1] from rfl,
    scanFrom, if_neg (by simp), if_neg (by simp [tGet, hspk]),
    if_neg (by simpa [tGet] using hmargin),
    if_pos (show it ≤ _ by simpa [tGet] using hiou),
    if_pos (show et ≤ _ by simpa [tGet] using hcos)]
  by_cases hdur : qsub t2.abs_end t2.abs_start ≤ qsub t1.abs_end t1.abs_start
  · rw [if_pos (show qsub (tGet [t1, t2] 1).abs_end _ ≤ _ by
      simpa [tGet] using hdur), if_pos hdur]
    rw [scanFrom, dedupLoop,
      if_pos (Or.inl (show ([true, true].set 1 false).getD 1 true = false
        from rfl)), dedupLoop]
    rfl
  · rw [if_neg (show ¬ qsub (tGet [t1, t2] 1).abs_end _ ≤ _ by
      simpa [tGet] using hdur), if_neg hdur]
    rw [dedupLoop, if_neg (by simp [tGet, ← hspk, hsome]),
      show List.range' (1 + 1) ([t1, t2].length - (1 + 1)) = [] from rfl,
      scanFrom, dedupLoop]
    rfl

/-- Claim C3: on a confirmed duplicate the turn with the weakly longer
duration is kept: when the later turn `j` is the shorter one it is dropped
and the scan continues with the remaining indices, whereas when the earlier
turn `i` is strictly shorter the scan stops at once, returning with only
`i` dropped; consequently, on a two-turn batch the longer turn is the one
returned. -/
theorem hard_dedupe_keeps_longer_drop_asymmetry (sqrt : ℚ → ℚ)
    (it et : ℚ) (ts : List Turn) (i j : ℕ) (js : List ℕ)
    (keep : List Bool) (t1 t2 : Turn) :
    (keep.getD j true = true →
      (tGet ts i).spk_global = (tGet ts j).spk_global →
      ¬ qadd (tGet ts i).abs_end 1 < (tGet ts j).abs_start →
      it ≤ iou_time (tGet ts i).abs_start (tGet ts i).abs_end
        (tGet ts j).abs_start (tGet ts j).abs_end →
      et ≤ cosine sqrt (tGet ts i).emb (tGet ts j).emb →
      qsub (tGet ts j).abs_end (tGet ts j).abs_start ≤
        qsub (tGet ts i).abs_end (tGet ts i).abs_start →
      scanFrom sqrt it et ts i (j :: js) keep =
        scanFrom sqrt it et ts i js (keep.set j false)) ∧
    (keep.getD j true = true →
      (tGet ts i).spk_global = (tGet ts j).spk_global →
      ¬ qadd (tGet ts i).abs_end 1 < (tGet ts j).abs_start →
      it ≤ iou_time (tGet ts i).abs_start (tGet ts i).abs_end
        (tGet ts j).abs_start (tGet ts j).abs_end →
      et ≤ cosine sqrt (tGet ts i).emb (tGet ts j).emb →
      ¬ qsub (tGet ts j).abs_end (tGet ts j).abs_start ≤
        qsub (tGet ts i).abs_end (tGet ts i).abs_start →
      scanFrom sqrt it et ts i (j :: js) keep = keep.set i false) ∧
    (dedupLE t1 t2 → t1.spk_global = t2.spk_global →
      t1.spk_global ≠ none → ¬ qadd t1.abs_end 1 < t2.abs_start →
      it ≤ iou_time t1.abs_start t1.abs_end t2.abs_start t2.abs_end →
      et ≤ cosine sqrt t1.emb t2.emb →
      qsub t2.abs_end t2.abs_start < qsub t1.abs_end t1.abs_start →
      hard_dedupe sqrt it et [t1, t2] = [t1]) ∧
    (dedupLE t1 t2 → t1.spk_global = t2.spk_global →
      t1.spk_global ≠ none → ¬ qadd t1.abs_end 1 < t2.abs_start →
      it ≤ iou_time t1.abs_start t1.abs_end t2.abs_start t2.abs_end →
      et ≤ cosine sqrt t1.emb t2.emb →
      qsub t1.abs_end t1.abs_start < qsub t2.abs_end t2.abs_start →
      hard_dedupe sqrt it et [t1, t2] = [t2]) := by
  refine ⟨?_, ?_, ?_, ?_⟩
  · intro h1 h2 h3 h4 h5 h6
    rw [scanFrom, if_neg (fun hc => absurd (h1.symm.trans hc) (by decide)),
      if_neg (not_ne_iff.mpr h2), if_neg h3, if_pos h4, if_pos h5, if_pos h6]
  · intro h1 h2 h3 h4 h5 h6
    rw [scanFrom, if_neg (fun hc => absurd (h1.symm.trans hc) (by decide)),
      if_neg (not_ne_iff.mpr h2), if_neg h3, if_pos h4, if_pos h5, if_neg h6]
  · intro h1 h2 h3 h4 h5 h6 h7
    rw [hard_dedupe_pair sqrt it et t1 t2 h1 h2 h3 h4 h5 h6,
      if_pos h7.le]
  · intro h1 h2 h3 h4 h5 h6 h7
    rw [hard_dedupe_pair sqrt it et t1 t2 h1 h2 h3 h4 h5 h6,
      if_neg (not_le.mpr h7)]

/-- Witness for `hard_dedupe_keeps_longer_drop_asymmetry`: dropping the
shorter later turn continues the scan (`dT1` vs `dT2`), dropping the
shorter earlier turn stops it (scanning from `dT2` against `dT1`), the
two-turn batch `[dT1, dT2]` keeps the longer `dT1`, and `[dT4, dT5]` keeps
the longer `dT5`. -/
theorem hard_dedupe_keeps_longer_drop_asymmetry_witness :
    (scanFrom ratSqrt (mkRat 1 10) (mkRat 9 10) [dT1, dT2] 0 [1]
        [true, true] =
      scanFrom ratSqrt (mkRat 1 10) (mkRat 9 10) [dT1, dT2] 0 []
        ([true, true].set 1 false)) ∧
    (scanFrom ratSqrt (mkRat 1 10) (mkRat 9 10) [dT1, dT2] 1 [0]
        [true, true] = [true, true].set 1 false) ∧
    hard_dedupe ratSqrt (mkRat 1 10) (mkRat 9 10) [dT1, dT2] = [dT1] ∧
    hard_dedupe ratSqrt (mkRat 1 10) (mkRat 9 10) [dT4, dT5] = [dT5] :=
  ⟨(hard_dedupe_keeps_longer_drop_asymmetry ratSqrt (mkRat 1 10)
      (mkRat 9 10) [dT1, dT2] 0 1 [] [true, true] dT1 dT2).1
      (by decide) (by decide) (by decide) (by decide) (by decide) (by decide),
    (hard_dedupe_keeps_longer_drop_asymmetry ratSqrt (mkRat 1 10)
      (mkRat 9 10) [dT1, dT2] 1 0 [] [true, true] dT1 dT2).2.1
      (by decide) (by decide) (by decide) (by decide) (by decide) (by decide),
    (hard_dedupe_keeps_longer_drop_asymmetry ratSqrt (mkRat 1 10)
      (mkRat 9 10) [dT1, dT2] 0 1 [] [true, true] dT1 dT2).2.2.1
      (by decide) (by decide) (by decide) (by decide) (by decide) (by decide)
      (by decide),
    (hard_dedupe_keeps_longer_drop_asymmetry ratSqrt (mkRat 1 10)
      (mkRat 9 10) [dT4, dT5] 0 1 [] [true, true] dT4 dT5).2.2.2
      (by decide) (by decide) (by decide) (by decide) (by decide) (by decide)
      (by decide)⟩

/-- Claim C10: when a confirmed duplicate pair has exactly equal durations,
the `di >= dj` comparison holds, so the later turn `j` is the one dropped
(the earlier one's flag is untouched and the scan continues); on a
two-turn batch of equal durations the turn earlier in `(abs_start,
camera)` order is returned. -/
theorem hard_dedupe_duration_tie_keeps_earlier (sqrt : ℚ → ℚ)
    (it et : ℚ) (ts : List Turn) (i j : ℕ) (js : List ℕ)
    (keep : List Bool) (t1 t2 : Turn) :
    (keep.getD j true = true →
      (tGet ts i).spk_global = (tGet ts j).spk_global →
      ¬ qadd (tGet ts i).abs_end 1 < (tGet ts j).abs_start →
      it ≤ iou_time (tGet ts i).abs_start (tGet ts i).abs_end
        (tGet ts j).abs_start (tGet ts j).abs_end →
      et ≤ cosine sqrt (tGet ts i).emb (tGet ts j).emb →
      qsub (tGet ts j).abs_end (tGet ts j).abs_start =
        qsub (tGet ts i).abs_end (tGet ts i).abs_start →
      i ≠ j →
      scanFrom sqrt it et ts i (j :: js) keep =
        scanFrom sqrt it et ts i js (keep.set j false) ∧
      (keep.set j false).getD i true = keep.getD i true) ∧
    (dedupLE t1 t2 → t1.spk_global = t2.spk_global →
      t1.spk_global ≠ none → ¬ qadd t1.abs_end 1 < t2.abs_start →
      it ≤ iou_time t1.abs_start t1.abs_end t2.abs_start t2.abs_end →
      et ≤ cosine sqrt t1.emb t2.emb →
      qsub t2.abs_end t2.abs_start = qsub t1.abs_end t1.abs_start →
      hard_dedupe sqrt it et [t1, t2] = [t1]) := by
  constructor
  · intro h1 h2 h3 h4 h5 h6 hij
    constructor
    · rw [scanFrom, if_neg (fun hc => absurd (h1.symm.trans hc) (by decide)),
        if_neg (not_ne_iff.mpr h2), if_neg h3, if_pos h4, if_pos h5,
        if_pos h6.le]
    · exact getD_set_ne keep false true (fun he => hij he.symm)
  · intro h1 h2 h3 h4 h5 h6 h7
    rw [hard_dedupe_pair sqrt it et t1 t2 h1 h2 h3 h4 h5 h6,
      if_pos h7.le]

/-- Witness for `hard_dedupe_duration_tie_keeps_earlier`: `dT6` and `dT7`
have equal 10-second durations; the scan drops the later `dT7` and the
two-turn batch keeps the earlier `dT6`. -/
theorem hard_dedupe_duration_tie_keeps_earlier_witness :
    (scanFrom ratSqrt (mkRat 1 10) (mkRat 9 10) [dT6, dT7] 0 [1]
        [true, true] =
      scanFrom ratSqrt (mkRat 1 10) (mkRat 9 10) [dT6, dT7] 0 []
        ([true, true].set 1 false) ∧
      ([true, true].set 1 false).getD 0 true = [true, true].getD 0 true) ∧
    hard_dedupe ratSqrt (mkRat 1 10) (mkRat 9 10) [dT6, dT7] = [dT6] :=
  ⟨(hard_dedupe_duration_tie_keeps_earlier ratSqrt (mkRat 1 10)
      (mkRat 9 10) [dT6, dT7] 0 1 [] [true, true] dT6 dT7).1
      (by decide) (by decide) (by decide) (by decide) (by decide) (by decide)
      (by decide),
    (hard_dedupe_duration_tie_keeps_earlier ratSqrt (mkRat 1 10)
      (mkRat 9 10) [dT6, dT7] 0 1 [] [true, true] dT6 dT7).2
      (by decide) (by decide) (by decide) (by decide) (by decide) (by decide)
      (by decide)⟩

theorem getD_eq_get {α : Type} (l : List α) (d : α) (i : ℕ)
    (h : i < l.length) : l.getD i d = l.get ⟨i, h⟩ := by
  simp [List.getD_eq_getElem?_getD, List.getElem?_eq_getElem h]

/-- Whatever the union-find did, a successful run of
`refine_by_verification` either returns the labels unchanged (no non-noise
cluster) or relabels through some root-collapsing function `F`. -/
theorem refine_ok_cases {σ ε : Type} (sqrt : ℚ → ℚ)
    (choice : σ → ℕ → ℕ × σ) (seeded : ℕ → σ) (entropy : σ)
    (ver : ℕ → ℕ → Except ε ℚ) (turns : List Turn) (labels : List Int)
    (thr : ℚ) (mp : ℕ) (out : List Int)
    (h : refine_by_verification sqrt choice seeded entropy ver turns labels
      thr mp = Except.ok out) :
    (keysOf labels = [] ∧ out = labels) ∨
    ∃ F : Int → Int, out = relabel labels (keysOf labels) F := by
  rw [refine_by_verification] at h
  by_cases hk : (keysOf labels).isEmpty
  · rw [if_pos hk] at h
    exact Or.inl ⟨List.isEmpty_iff.mp hk, (Except.ok.inj h).symm⟩
  · rw [if_neg hk] at h
    dsimp only at h
    split at h
    · exact absurd h (by simp)
    · exact Or.inr ⟨_, (Except.ok.inj h).symm⟩

theorem lookup_cons_ne {β : Type} {r k : Int} (b : β) (es : List (Int × β))
    (h : r ≠ k) : ((k, b) :: es).lookup r = es.lookup r := by
  rw [List.lookup_cons, beq_eq_false_iff_ne.mpr h]

theorem assignRoots_lookup_mono (F : Int → Int) :
    ∀ (keys : List Int) (m0 : List (Int × Int)) (n0 : ℕ) (r v : Int),
    m0.lookup r = some v →
    (assignRoots F keys m0 n0).1.lookup r = some v := by
  intro keys
  induction keys with
  | nil => intro m0 n0 r v h; exact h
  | cons k ks ih =>
    intro m0 n0 r v h
    rw [assignRoots]
    split
    · exact ih m0 n0 r v h
    · rename_i heq
      have hne : r ≠ F k := by
        intro he
        rw [he, heq] at h
        cases h
      refine ih _ _ r v ?_
      rw [lookup_cons_ne _ _ hne]
      exact h

theorem assignRoots_lookup_isSome (F : Int → Int) :
    ∀ (keys : List Int) (m0 : List (Int × Int)) (n0 : ℕ),
    ∀ k ∈ keys, ((assignRoots F keys m0 n0).1.lookup (F k)).isSome := by
  intro keys
  induction keys with
  | nil => intro m0 n0 k hk; cases hk
  | cons k ks ih =>
    intro m0 n0 x hx
    rw [assignRoots]
    rcases List.mem_cons.mp hx with rfl | hx'
    · split
      · rename_i w heq
        rw [assignRoots_lookup_mono F ks m0 n0 (F x) w heq]
        rfl
      · rw [assignRoots_lookup_mono F ks _ _ (F x) ((n0 : ℕ) : Int)
          List.lookup_cons_self]
        rfl
    · split
      · exact ih m0 n0 x hx'
      · exact ih _ _ x hx'

theorem assignRoots_bounded (F : Int → Int) :
    ∀ (keys : List Int) (m0 : List (Int × Int)) (n0 : ℕ),
    RootMapBounded m0 n0 →
    RootMapBounded (assignRoots F keys m0 n0).1 (assignRoots F keys m0 n0).2 ∧
    n0 ≤ (assignRoots F keys m0 n0).2 := by
  intro keys
  induction keys with
  | nil => intro m0 n0 h; exact ⟨h, Nat.le_refl n0⟩
  | cons k ks ih =>
    intro m0 n0 h
    rw [assignRoots]
    split
    · exact ih m0 n0 h
    · have hb : RootMapBounded ((F k, ((n0 : ℕ) : Int)) :: m0) (n0 + 1) := by
        intro r v hl
        by_cases hr : r = F k
        · rw [hr, List.lookup_cons_self] at hl
          exact ⟨n0, Nat.lt_succ_self n0, (Option.some.inj hl).symm⟩
        · rw [lookup_cons_ne _ _ hr] at hl
          obtain ⟨t, ht, rfl⟩ := h r v hl
          exact ⟨t, Nat.lt_succ_of_lt ht, rfl⟩
      obtain ⟨h1, h2⟩ := ih _ (n0 + 1) hb
      exact ⟨h1, Nat.le_of_succ_le h2⟩

theorem assignRoots_le (F : Int → Int) :
    ∀ (keys : List Int) (m0 : List (Int × Int)) (n0 : ℕ),
    (assignRoots F keys m0 n0).2 ≤ n0 + keys.length := by
  intro keys
  induction keys with
  | nil => intro m0 n0; simp [assignRoots]
  | cons k ks ih =>
    intro m0 n0
    rw [assignRoots]
    split
    · calc (assignRoots F ks m0 n0).2 ≤ n0 + ks.length := ih m0 n0
        _ ≤ n0 + (k :: ks).length := by simp
    · calc (assignRoots F ks _ (n0 + 1)).2 ≤ (n0 + 1) + ks.length := ih _ _
        _ = n0 + (k :: ks).length := by simp; omega

theorem assignRoots_attained (F : Int → Int) :
    ∀ (keys : List Int) (m0 : List (Int × Int)) (n0 : ℕ) (t : ℕ),
    n0 ≤ t → t < (assignRoots F keys m0 n0).2 →
    ∃ k ∈ keys, (assignRoots F keys m0 n0).1.lookup (F k) =
      some ((t : ℕ) : Int) := by
  intro keys
  induction keys with
  | nil =>
    intro m0 n0 t h1 h2
    rw [assignRoots] at h2
    omega
  | cons k ks ih =>
    intro m0 n0 t h1 h2
    rw [assignRoots] at h2 ⊢
    revert h2
    split
    · intro h2
      obtain ⟨k', hk', he⟩ := ih m0 n0 t h1 h2
      exact ⟨k', List.mem_cons_of_mem _ hk', he⟩
    · intro h2
      by_cases ht : t = n0
      · subst ht
        refine ⟨k, List.mem_cons_self _ _, ?_⟩
        exact assignRoots_lookup_mono F ks _ _ (F k) _ List.lookup_cons_self
      · obtain ⟨k', hk', he⟩ := ih _ (n0 + 1) t (by omega) h2
        exact ⟨k', List.mem_cons_of_mem _ hk', he⟩

theorem assignRoots_full (F : Int → Int) :
    ∀ (keys : List Int) (m0 : List (Int × Int)) (n0 : ℕ),
    (assignRoots F keys m0 n0).2 = n0 + keys.length →
    ∀ (t : ℕ) (h : t < keys.length),
    (assignRoots F keys m0 n0).1.lookup (F (keys.get ⟨t, h⟩)) =
      some ((n0 + t : ℕ) : Int) := by
  intro keys
  induction keys with
  | nil => intro m0 n0 _ t h; cases h
  | cons k ks ih =>
    intro m0 n0 hfull t h
    rw [assignRoots] at hfull ⊢
    revert hfull
    split
    · intro hfull
      have := assignRoots_le F ks m0 n0
      simp only [List.length_cons] at hfull
      omega
    · intro hfull
      cases t with
      | zero =>
        simpa using assignRoots_lookup_mono F ks
          ((F k, ((n0 : ℕ) : Int)) :: m0) (n0 + 1) (F k) ((n0 : ℕ) : Int)
          List.lookup_cons_self
      | succ t' =>
        have h' : t' < ks.length := by simpa using h
        have hfull' : (assignRoots F ks ((F k, ((n0 : ℕ) : Int)) :: m0)
            (n0 + 1)).2 = (n0 + 1) + ks.length := by
          simp only [List.length_cons] at hfull
          omega
        have := ih ((F k, ((n0 : ℕ) : Int)) :: m0) (n0 + 1) hfull' t' h'
        rw [show (n0 + (t' + 1) : ℕ) = ((n0 + 1) + t' : ℕ) from by omega]
        simpa using this

theorem distinctNN_eq_keysOf_length (labels : List Int) :
    distinctNN labels = (keysOf labels).length :=
  (List.length_insertionSort _ _).symm

theorem keysOf_eq_nil_iff {labels : List Int} :
    keysOf labels = [] ↔ ∀ v ∈ labels, v = -1 := by
  constructor
  · intro h v hv
    by_contra hne
    have : v ∈ keysOf labels := mem_keysOf.mpr ⟨hv, hne⟩
    rw [h] at this
    cases this
  · intro h
    have : ∀ v, v ∉ keysOf labels := by
      intro v hv
      obtain ⟨h1, h2⟩ := mem_keysOf.mp hv
      exact h2 (h v h1)
    exact List.eq_nil_iff_forall_not_mem.mpr this

theorem empty_rootMapBounded : RootMapBounded [] 0 := by
  intro r v h
  simp at h

theorem relabel_length (labels keys : List Int) (F : Int → Int) :
    (relabel labels keys F).length = labels.length := by
  simp [relabel]

theorem relabel_mem_bound {labels : List Int} (F : Int → Int) :
    ∀ v ∈ relabel labels (keysOf labels) F, v ≠ -1 →
    ∃ t : ℕ, t < (assignRoots F (keysOf labels) [] 0).2 ∧ v = (t : Int) := by
  intro v hv hne
  rw [relabel] at hv
  obtain ⟨lab, hlab, hf⟩ := List.mem_map.mp hv
  by_cases h1 : lab = -1
  · rw [if_pos h1, h1] at hf
    exact absurd hf.symm hne
  · rw [if_neg h1] at hf
    have hk : lab ∈ keysOf labels := mem_keysOf.mpr ⟨hlab, h1⟩
    obtain ⟨w, hw⟩ := Option.isSome_iff_exists.mp
      (assignRoots_lookup_isSome F (keysOf labels) [] 0 lab hk)
    obtain ⟨t, ht, rfl⟩ :=
      (assignRoots_bounded F (keysOf labels) [] 0 empty_rootMapBounded).1
        _ _ hw
    rw [hw] at hf
    exact ⟨t, ht, hf.symm⟩

theorem relabel_attained {labels : List Int} (F : Int → Int) :
    ∀ t : ℕ, t < (assignRoots F (keysOf labels) [] 0).2 →
    (t : Int) ∈ relabel labels (keysOf labels) F := by
  intro t ht
  obtain ⟨k, hk, hlook⟩ :=
    assignRoots_attained F (keysOf labels) [] 0 t (Nat.zero_le t) ht
  obtain ⟨hkl, hkne⟩ := mem_keysOf.mp hk
  rw [relabel]
  refine List.mem_map.mpr ⟨k, hkl, ?_⟩
  rw [if_neg hkne, hlook]
  rfl

theorem relabel_noise_iff {labels : List Int} (F : Int → Int) (i : ℕ)
    (hi : i < labels.length) :
    (relabel labels (keysOf labels) F).getD i (-1) = -1 ↔
      labels.getD i (-1) = -1 := by
  rw [relabel]
  have hlen : i < (labels.map (fun lab =>
      if lab = -1 then lab
      else ((assignRoots F (keysOf labels) [] 0).1.lookup (F lab)).getD 0)).length := by
    simpa using hi
  rw [getD_eq_get _ _ i hlen, getD_eq_get labels (-1) i hi]
  simp only [List.get_eq_getElem, List.getElem_map]
  by_cases h2 : labels[i] = -1
  · simp [h2]
  · rw [if_neg h2]
    refine iff_of_false ?_ h2
    cases hl : (assignRoots F (keysOf labels) [] 0).1.lookup (F labels[i]) with
    | none => simp
    | some w =>
      obtain ⟨t, _, rfl⟩ :=
        (assignRoots_bounded F (keysOf labels) [] 0 empty_rootMapBounded).1
          _ _ hl
      simp only [Option.getD_some]
      omega

/-- Claim C4: a successful `refine_by_verification` returns a label array
of the same length in which noise (-1) positions are exactly the input's
noise positions, the distinct non-noise count never grows, and the
non-noise values form a contiguous zero-based range. -/
theorem refine_label_invariants {σ ε : Type} (sqrt : ℚ → ℚ)
    (choice : σ → ℕ → ℕ × σ) (seeded : ℕ → σ) (entropy : σ)
    (ver : ℕ → ℕ → Except ε ℚ) (turns : List Turn) (labels : List Int)
    (thr : ℚ) (mp : ℕ) (out : List Int)
    (h : refine_by_verification sqrt choice seeded entropy ver turns labels
      thr mp = Except.ok out) :
    out.length = labels.length ∧
    distinctNN out ≤ distinctNN labels ∧
    (∀ i, i < labels.length →
      (out.getD i (-1) = -1 ↔ labels.getD i (-1) = -1)) ∧
    ∃ m : ℕ, (∀ v ∈ out, v ≠ -1 → ∃ t : ℕ, t < m ∧ v = (t : Int)) ∧
      (∀ t : ℕ, t < m → (t : Int) ∈ out) := by
  rcases refine_ok_cases sqrt choice seeded entropy ver turns labels thr mp
    out h with ⟨hk, rfl⟩ | ⟨F, rfl⟩
  · refine ⟨rfl, Nat.le_refl _, fun i _ => Iff.rfl, 0, ?_, ?_⟩
    · intro v hv hne
      exact absurd (keysOf_eq_nil_iff.mp hk v hv) hne
    · intro t ht
      cases ht
  · refine ⟨relabel_length _ _ _, ?_, fun i hi => relabel_noise_iff F i hi,
      (assignRoots F (keysOf labels) [] 0).2,
      relabel_mem_bound F, relabel_attained F⟩
    -- distinct non-noise count
    have hsub : ((relabel labels (keysOf labels) F).filter
        (fun v => decide (v ≠ -1))).dedup ⊆
        (List.range (assignRoots F (keysOf labels) [] 0).2).map
          (fun t : ℕ => (t : Int)) := by
      intro v hv
      rw [List.mem_dedup, List.mem_filter] at hv
      obtain ⟨hv1, hv2⟩ := hv
      obtain ⟨t, ht, rfl⟩ := relabel_mem_bound F v hv1 (by simpa using hv2)
      exact List.mem_map.mpr ⟨t, List.mem_range.mpr ht, rfl⟩
    have hlen := (List.subperm_of_subset (List.nodup_dedup _) hsub).length_le
    rw [List.length_map, List.length_range] at hlen
    calc distinctNN (relabel labels (keysOf labels) F) ≤
        (assignRoots F (keysOf labels) [] 0).2 := hlen
      _ ≤ 0 + (keysOf labels).length := assignRoots_le F (keysOf labels) [] 0
      _ = distinctNN labels := by rw [distinctNN_eq_keysOf_length]; omega

/-- Witness for `refine_label_invariants`: the successful first pass of the
three-cluster example returns `[0, 0, 1]` for input labels `[0, 1, 2]`. -/
theorem refine_label_invariants_witness :
    ([0, 0, 1] : List Int).length = ([0, 1, 2] : List Int).length ∧
    distinctNN [0, 0, 1] ≤ distinctNN [0, 1, 2] ∧
    (∀ i, i < ([0, 1, 2] : List Int).length →
      (([0, 0, 1] : List Int).getD i (-1) = -1 ↔
        ([0, 1, 2] : List Int).getD i (-1) = -1)) ∧
    ∃ m : ℕ, (∀ v ∈ ([0, 0, 1] : List Int), v ≠ -1 →
        ∃ t : ℕ, t < m ∧ v = (t : Int)) ∧
      (∀ t : ℕ, t < m → (t : Int) ∈ ([0, 0, 1] : List Int)) :=
  refine_label_invariants ratSqrt unitChoice unitSeed () verAllOne
    [mkT embA, mkT embB, mkT embC] [0, 1, 2] (mkRat 1 2) 1 [0, 0, 1] rfl

theorem natRange_sorted (n : ℕ) :
    List.Sorted (fun a b : Int => a ≤ b) (natRange n) := by
  rw [natRange, List.Sorted, List.pairwise_map]
  refine (List.pairwise_lt_range n).imp ?_
  intro a b h
  exact_mod_cast Nat.le_of_lt h

theorem natRange_nodup (n : ℕ) : (natRange n).Nodup := by
  refine List.Nodup.map ?_ (List.nodup_range n)
  intro a b h
  simpa using h

theorem keysOf_sorted (labels : List Int) :
    List.Sorted (fun a b : Int => a ≤ b) (keysOf labels) :=
  List.sorted_insertionSort _ _

theorem keysOf_nodup (labels : List Int) : (keysOf labels).Nodup :=
  (List.perm_insertionSort _ _).nodup_iff.mpr (List.nodup_dedup _)

theorem keysOf_eq_natRange {L : List Int} {n : ℕ}
    (hub : ∀ v ∈ L, v ≠ -1 → ∃ t : ℕ, t < n ∧ v = (t : Int))
    (hat : ∀ t : ℕ, t < n → (t : Int) ∈ L) :
    keysOf L = natRange n := by
  have hperm : List.Perm (keysOf L) (natRange n) := by
    rw [List.perm_ext_iff_of_nodup (keysOf_nodup L) (natRange_nodup n)]
    intro v
    rw [mem_keysOf, natRange, List.mem_map]
    constructor
    · rintro ⟨h1, h2⟩
      obtain ⟨t, ht, rfl⟩ := hub v h1 h2
      exact ⟨t, List.mem_range.mpr ht, rfl⟩
    · rintro ⟨t, ht, rfl⟩
      refine ⟨hat t (List.mem_range.mp ht), ?_⟩
      omega
  exact List.eq_of_perm_of_sorted hperm (keysOf_sorted L) (natRange_sorted n)

/-- Claim C6 (amended): refinement is a fixed point exactly when the second
pass performs no further merges: if the second run of
`refine_by_verification` on its own output does not shrink the number of
distinct non-noise labels (no union happened), it returns exactly the
labels it was given.  (Without that proviso a second pass can merge
further, see the counterexample `refine_not_idempotent`.) -/
theorem refine_fixed_point_when_no_merge {σ ε : Type} (sqrt : ℚ → ℚ)
    (choice : σ → ℕ → ℕ × σ) (seeded : ℕ → σ) (entropy : σ)
    (ver : ℕ → ℕ → Except ε ℚ) (turns : List Turn)
    (labels L1 L2 : List Int) (thr : ℚ) (mp : ℕ)
    (h1 : refine_by_verification sqrt choice seeded entropy ver turns labels
      thr mp = Except.ok L1)
    (h2 : refine_by_verification sqrt choice seeded entropy ver turns L1
      thr mp = Except.ok L2)
    (hsame : distinctNN L2 = distinctNN L1) :
    L2 = L1 := by
  have hL1 : ∃ n1 : ℕ, (∀ v ∈ L1, v ≠ -1 → ∃ t : ℕ, t < n1 ∧ v = (t : Int)) ∧
      (∀ t : ℕ, t < n1 → (t : Int) ∈ L1) := by
    rcases refine_ok_cases sqrt choice seeded entropy ver turns labels thr mp
      L1 h1 with ⟨hk, rfl⟩ | ⟨F, rfl⟩
    · exact ⟨0, fun v hv hne => absurd (keysOf_eq_nil_iff.mp hk v hv) hne,
        fun t ht => absurd ht (Nat.not_lt_zero t)⟩
    · exact ⟨_, relabel_mem_bound F, relabel_attained F⟩
  obtain ⟨n1, hub1, hat1⟩ := hL1
  have hkeys1 : keysOf L1 = natRange n1 := keysOf_eq_natRange hub1 hat1
  have hlen1 : (keysOf L1).length = n1 := by
    rw [hkeys1, natRange, List.length_map, List.length_range]
  have hd1 : distinctNN L1 = n1 := by
    rw [distinctNN_eq_keysOf_length, hlen1]
  rcases refine_ok_cases sqrt choice seeded entropy ver turns L1 thr mp
    L2 h2 with ⟨_, rfl⟩ | ⟨F2, rfl⟩
  · rfl
  · have hd2 : distinctNN (relabel L1 (keysOf L1) F2) =
        (assignRoots F2 (keysOf L1) [] 0).2 := by
      rw [distinctNN_eq_keysOf_length,
        keysOf_eq_natRange (relabel_mem_bound F2) (relabel_attained F2),
        natRange, List.length_map, List.length_range]
    have hfull : (assignRoots F2 (keysOf L1) [] 0).2 =
        0 + (keysOf L1).length := by
      rw [← hd2, hsame, hd1, hlen1]
      omega
    have hid : ∀ t : ℕ, t < n1 →
        (assignRoots F2 (keysOf L1) [] 0).1.lookup (F2 (t : Int)) =
          some (t : Int) := by
      intro t ht
      have ht' : t < (keysOf L1).length := by omega
      have hthis := assignRoots_full F2 (keysOf L1) [] 0 hfull t ht'
      have hget : (keysOf L1).get ⟨t, ht'⟩ = (t : Int) := by
        rw [List.get_of_eq hkeys1]
        simp [natRange]
      rw [hget] at hthis
      simpa using hthis
    rw [relabel]
    have hcong : ∀ lab ∈ L1,
        (if lab = -1 then lab
          else ((assignRoots F2 (keysOf L1) [] 0).1.lookup (F2 lab)).getD 0) =
        id lab := by
      intro lab hlab
      by_cases hne : lab = -1
      · rw [if_pos hne]; rfl
      · rw [if_neg hne]
        obtain ⟨t, ht, rfl⟩ := hub1 lab hlab hne
        rw [hid t ht]
        rfl
    rw [List.map_congr_left hcong, List.map_id]

/-- Witness for `refine_fixed_point_when_no_merge`: with a verifier that
never verifies, both passes on `[0, 1]` return `[0, 1]`, the distinct
count stays 2, and the second pass is the identity. -/
theorem refine_fixed_point_when_no_merge_witness :
    ([0, 1] : List Int) = [0, 1] :=
  refine_fixed_point_when_no_merge ratSqrt unitChoice unitSeed ()
    verAllZero [mkT embA, mkT embB] [0, 1] [0, 1] [0, 1] (mkRat 1 2) 1
    rfl rfl rfl

end BlinkStitch
